import Mathlib

/-!
Verification development for the `run_python_local` MCP server.

The TypeScript sources are shallowly embedded: strings become `List Char`,
fallible operations become `Except` or explicit outcome types, and the
effectful runners (`runPythonCode`, `runLocalPython`) become pure functions
of an explicit oracle describing what the spawned subprocess / package
manager did.  Each definition is translated from the source file named in
its doc comment.
-/

namespace RunPythonLocal

/-- JavaScript `s.split('\n')`: splits on every newline, keeping empty
segments (so `"a\n"` yields `["a", ""]` and `""` yields `[""]`). -/
def splitLines : List Char → List (List Char)
  | [] => [[]]
  | c :: rest =>
    if c = '\n' then [] :: splitLines rest
    else
      match splitLines rest with
      | [] => [[c]]
      | h :: t => (c :: h) :: t

/-- Fuelled worker for global literal replacement.  Mirrors JavaScript
`str.replace(new RegExp(pat, 'g'), repl)` for a pattern without regex
metacharacters: leftmost match wins, scanning resumes after the match, and
the replacement text is never rescanned.  The fuel only makes the
recursion structural; `replaceAll` below supplies enough fuel. -/
def replaceAllF (pat repl : List Char) : Nat → List Char → List Char
  | 0, l => l
  | _ + 1, [] => []
  | fuel + 1, c :: rest =>
    if pat ≠ [] ∧ pat.isPrefixOf (c :: rest) then
      repl ++ replaceAllF pat repl fuel (rest.drop (pat.length - 1))
    else
      c :: replaceAllF pat repl fuel rest

/-- Global literal replacement (see `replaceAllF`). -/
def replaceAll (pat repl l : List Char) : List Char :=
  replaceAllF pat repl l.length l

/-- Configuration of the single virtual mount (src/main.ts `FileSystemConfig`).
`venvPath` exists in the source but plays no role in the claims below. -/
structure FileSystemConfig where
  mountPoint : List Char
  localPath : List Char
  venvPath : Option (List Char) := none

/-- src/main.ts `virtualToLocalPath`: throws when the input does not have
`mountPoint` as a plain string prefix, otherwise appends the remainder of
the input to `localPath`.  The thrown `Error` is modelled as `.error`. -/
def virtualToLocalPath (cfg : FileSystemConfig) (virtualPath : List Char) :
    Except (List Char) (List Char) :=
  if cfg.mountPoint.isPrefixOf virtualPath then
    .ok (cfg.localPath ++ virtualPath.drop cfg.mountPoint.length)
  else
    .error ("Path is outside the mount point".data)

/-- src/main.ts `replaceVirtualPaths`: global regex replacement of the
mount point (a literal without metacharacters) by the local path. -/
def replaceVirtualPaths (cfg : FileSystemConfig) (code : List Char) : List Char :=
  replaceAll cfg.mountPoint cfg.localPath code

/-- `virtToHost` from the unnamed variant (part_005): requires the input to
start with `VROOT ++ "/"`, then joins `HOST_DIR` with the remainder.
`node:path.join` of a directory and a separator-free-headed relative path
is modelled as concatenation with one `'/'` in between. -/
def virtToHost (hostDir vroot : List Char) (p : List Char) :
    Except (List Char) (List Char) :=
  if (vroot ++ ['/']).isPrefixOf p then
    .ok (hostDir ++ '/' :: p.drop (vroot.length + 1))
  else
    .error ("path must start with the virtual root".data)

/-- Concrete configuration used by the closed counterexamples: the default
mount point `/working` bound to the host directory `/h`. -/
def cfgW : FileSystemConfig := ⟨"/working".data, "/h".data, none⟩

/-- The `status` field of the source's `RunResult` interface. -/
inductive RunStatus where
  | success
  | error
deriving DecidableEq, Repr

/-- src/main.ts `RunResult` (Deno variant): status, stdout split into
lines, and a nullable error text. -/
structure RunResult where
  status : RunStatus
  output : List (List Char)
  error : Option (List Char)
deriving DecidableEq, Repr

/-- Log levels actually emitted by `runPythonCode`; only the cleanup
warning matters for the claims. -/
inductive LogLevel where
  | info
  | warning
deriving DecidableEq, Repr

/-- Oracle describing what the spawned `python` subprocess did: either it
completed with an exit code and captured stdout/stderr bytes, or spawning
or awaiting it raised an exception (for instance, the interpreter binary
is missing).  In the `raised` case the temporary file has already been
written (the write precedes the spawn in the source). -/
inductive SpawnOutcome where
  | completed (exitCode : Int) (stdout stderr : List Char)
  | raised (msg : List Char)
deriving DecidableEq, Repr

/-- The observable effects of one `runPythonCode` request: the source text
staged into the temp file, the returned `RunResult`, the warning log
entries, and whether the temp file is still on disk when the function
returns. -/
structure RunPythonTrace where
  stagedSource : List Char
  result : RunResult
  logs : List (LogLevel × List Char)
  tempFileRemains : Bool
deriving DecidableEq, Repr

def cleanupFailMsg : List Char := "Failed to clean up temporary file".data

def processExitMsg (code : Int) : List Char :=
  "Process exited with code ".data ++ (toString code).data

/-- src/main.ts `runPythonCode` (Deno variant, v0.0.94), as a pure function
of the subprocess oracle and of whether `Deno.remove` on the temp file
succeeded.  The body mirrors the source: the code is staged after
`replaceVirtualPaths`; if the spawn raises, the outer catch returns an
error result (without removing the temp file); otherwise the temp file
removal is attempted inside its own try/catch (failure only logs a
warning), and the result is built from the exit code, the stdout lines and
the stderr text (`error ? error : null` on exit 0, `error || "Process
exited with code N"` otherwise). -/
def runPythonCode (cfg : FileSystemConfig) (pythonCode : List Char)
    (spawn : SpawnOutcome) (cleanupOk : Bool) : RunPythonTrace :=
  let processedCode := replaceVirtualPaths cfg pythonCode
  match spawn with
  | .raised msg =>
      { stagedSource := processedCode
        result := { status := .error, output := [], error := some msg }
        logs := []
        tempFileRemains := true }
  | .completed exitCode out err =>
      let output := splitLines out
      let cleanupLogs : List (LogLevel × List Char) :=
        if cleanupOk then [] else [(LogLevel.warning, cleanupFailMsg)]
      let result : RunResult :=
        if exitCode = 0 then
          { status := .success, output := output
            error := if err = [] then none else some err }
        else
          { status := .error, output := output
            error := if err = [] then some (processExitMsg exitCode) else some err }
      { stagedSource := processedCode
        result := result
        logs := cleanupLogs
        tempFileRemains := !cleanupOk }

/-- Abstraction of one Python code unit for the dependency-installation
models: an optional PEP 723 dependency list, the set of top-level imported
module names found by the `ast` scan, and whether executing the code
succeeds given the list of installed packages. -/
structure PyCode where
  pep723 : Option (List (List Char))
  imports : List (List Char)
  runsOk : List (List Char) → Bool

/-- Outcome of the Node variant's `detectAndInstallDependencies`: the
reported dependency list together with the updated installed set, or a
raised exception when the `pip install` command failed. -/
inductive InstallOutcome where
  | ok (deps installed : List (List Char))
  | raised
deriving DecidableEq

/-- src/main.ts `detectAndInstallDependencies` (Node variant, v0.0.1): only
a PEP 723 `dependencies` block is consulted — there is no import scan and
no inspection of any run's stderr.  A nonempty parsed list is passed to
one `pip install` invocation; a failing install throws.  `pipOk` says
which names the package manager can install (the single command succeeds
when all of them are installable). -/
def detectAndInstallDependencies (c : PyCode) (installed : List (List Char))
    (pipOk : List Char → Bool) : InstallOutcome :=
  match c.pep723 with
  | none => .ok [] installed
  | some deps =>
    if deps = [] then .ok [] installed
    else if deps.all pipOk then .ok deps (installed ++ deps)
    else .raised

/-- Terminal observation of one request in the dependency models: final
status, the `dependencies` field of the returned result, and how many
times the user's code was executed. -/
structure DepRunTrace where
  status : RunStatus
  dependencies : List (List Char)
  runs : Nat
deriving DecidableEq, Repr

/-- src/main.ts `runPythonCode` (Node variant, v0.0.1) restricted to the
dependency-relevant observations: dependencies are detected (PEP 723 only)
and installed before the single `python` invocation; a non-zero exit makes
`execPromise` throw, and the catch returns `status: 'error'` with
`dependencies: []`.  No path re-runs the code. -/
def nodeRunPythonCode (c : PyCode) (installed : List (List Char))
    (pipOk : List Char → Bool) : DepRunTrace :=
  match detectAndInstallDependencies c installed pipOk with
  | .raised => { status := .error, dependencies := [], runs := 0 }
  | .ok deps installed2 =>
    if c.runsOk installed2 then
      { status := .success, dependencies := deps, runs := 1 }
    else
      { status := .error, dependencies := [], runs := 1 }

/-- `find_deps` from the part_005 bootstrap script: a PEP 723 block wins
outright; otherwise the import scan collects the distinct top-level module
names and keeps those that are not importable (not installed). -/
def find_deps (c : PyCode) (installed : List (List Char)) : List (List Char) :=
  match c.pep723 with
  | some deps => deps
  | none => c.imports.eraseDups.filter (fun m => !installed.contains m)

/-- part_005 `runLocalPython` bootstrap, restricted to the
dependency-relevant observations: `find_deps` runs before any execution,
a nonempty result is handed to one `pip install` call with `check=False`
(failures are ignored, per-name success given by `pipOk`), and then the
code is executed exactly once; the reported `dependencies` list is the
`find_deps` result on both the success and the error path. -/
def runLocalPython (c : PyCode) (installed : List (List Char))
    (pipOk : List Char → Bool) : DepRunTrace :=
  let deps := find_deps c installed
  let installed2 := if deps = [] then installed else installed ++ deps.filter pipOk
  if c.runsOk installed2 then
    { status := .success, dependencies := deps, runs := 1 }
  else
    { status := .error, dependencies := deps, runs := 1 }

/-- Concrete code unit for the C1 counterexample: imports `numpy`, has no
PEP 723 block, and runs successfully exactly when `numpy` is installed. -/
def cNumpy : PyCode :=
  { pep723 := none
    imports := ["numpy".data]
    runsOk := fun env => env.contains "numpy".data }

/-- State visible to `process.env` readers: the host process environment
that exists underneath the polyfill. -/
structure NodeProcess where
  hostEnv : List (List Char × List Char)

/-- src/polyfill.ts: `Object.defineProperty(process, 'env', { get() { return {} } })`
— after the polyfill, reading `process.env` yields a fresh empty object,
ignoring the real host environment. -/
def processEnv (_p : NodeProcess) : List (List Char × List Char) := []

/-- JavaScript regex `\s`, restricted to the code points that can occur in
the arguments of this code base (ASCII whitespace, NBSP and BOM; the more
exotic Unicode space code points are not modelled). -/
def isSpace (c : Char) : Bool :=
  c = ' ' || c = '\t' || c = '\n' || c = '\r' || c = '\x0b' || c = '\x0c' ||
  c = '\u00A0' || c = '\uFEFF'

/-- The code points JavaScript's `.` (without the `s` flag) refuses to
match: LF, CR, LINE SEPARATOR, PARAGRAPH SEPARATOR. -/
def isLineTerm (c : Char) : Bool :=
  c = '\n' || c = '\r' || c = '\u2028' || c = '\u2029'

/-- Case-insensitive literal match of the tag name, returning the rest of
the input after it (the `i` flag of the source regex). -/
def stripTagCI : List Char → List Char → Option (List Char)
  | [], l => some l
  | _ :: _, [] => none
  | t :: ts, c :: cs => if c.toLower = t.toLower then stripTagCI ts cs else none

/-- The lazy `(?:.*?>)?` tail of the source regex: consume through the
first `'>'`, provided no line terminator comes first (`.` does not match
them); returns the rest after the `'>'`, or `none` when the group can only
match empty. -/
def scanGt : List Char → Option (List Char)
  | [] => none
  | c :: cs =>
    if c = '>' then some cs
    else if isLineTerm c then none
    else scanGt cs

/-- `\s*tag` after the opening bracket (shared by the `</...` and `<...`
alternatives).  `\s*` is taken greedily; since both concrete tag names
start with a letter, no backtracking into the whitespace run can succeed. -/
def tagCore (tag l2 : List Char) : Option (List Char) :=
  stripTagCI tag (l2.dropWhile isSpace)

/-- The `/?\s*tag` part of the regex, applied to the input after the
`'<'`.  The `/?` is greedy with backtracking: if taking the `'/'` fails,
matching retries without it. -/
def matchAfterLt (tag : List Char) (l1 : List Char) : Option (List Char) :=
  match l1 with
  | c1 :: l2 =>
    if c1 = '/' then
      match tagCore tag l2 with
      | some r => some r
      | none => tagCore tag l1
    else tagCore tag l1
  | [] => tagCore tag l1

/-- One attempt of the source regex `</?\s*tag(?:.*?>)?` (flags `gi`) at
the head of the input.  Returns the rest of the input after the match, or
`none` if the regex cannot match here. -/
def matchTag (tag : List Char) (l : List Char) : Option (List Char) :=
  match l with
  | [] => none
  | c :: l1 =>
    if c = '<' then
      match matchAfterLt tag l1 with
      | none => none
      | some r =>
        match scanGt r with
        | some rr => some rr
        | none => some r
    else none

/-- `match.replace(/</g, '&lt;').replace(/>/g, '&gt;')` applied to a
matched region. -/
def escBrackets (l : List Char) : List Char :=
  l.flatMap fun c =>
    if c = '<' then "&lt;".data else if c = '>' then "&gt;".data else [c]

/-- Fuelled worker for the global replacement performed by the source's
`escapeClosing`: at each position, if the regex matches, the matched text
is bracket-escaped and scanning resumes after it; otherwise the character
passes through.  `escapeClosing` below supplies enough fuel. -/
def escLoopF (tag : List Char) : Nat → List Char → List Char
  | 0, l => l
  | _ + 1, [] => []
  | fuel + 1, c :: rest =>
    match matchTag tag (c :: rest) with
    | some r =>
      escBrackets ((c :: rest).take ((c :: rest).length - r.length)) ++
        escLoopF tag fuel r
    | none => c :: escLoopF tag fuel rest

/-- src/main.ts `escapeClosing(closingTag)(str)`: every match of
`</?\s*closingTag(?:.*?>)?` (flags `gi`) has its angle brackets replaced
by `&lt;`/`&gt;`; everything else passes through. -/
def escapeClosing (tag s : List Char) : List Char :=
  escLoopF tag s.length s

/-- src/main.ts `asXml` (Deno variant): status line, then the output lines
escaped against `</output>`, then the error escaped against `</error>`,
joined by newlines. -/
def asXml (r : RunResult) : List (List Char) :=
  ["<status>".data ++ (if r.status = .success then "success".data else "error".data) ++ "</status>".data] ++
  (if r.output = [] then []
   else "<output>".data :: r.output.map (escapeClosing "output".data) ++ ["</output>".data]) ++
  (match r.error with
   | none => []
   | some e =>
     if e = [] then []
     else ["<error>".data, escapeClosing "error".data e, "</error>".data])


theorem replaceAllF_fuel (pat repl : List Char) :
    ∀ f₁ f₂ l, l.length ≤ f₁ → l.length ≤ f₂ →
      replaceAllF pat repl f₁ l = replaceAllF pat repl f₂ l := by
  intro f₁
  induction f₁ with
  | zero =>
    intro f₂ l h₁ _
    have hl : l = [] := List.length_eq_zero.mp (Nat.le_zero.mp h₁)
    subst hl
    cases f₂ <;> rfl
  | succ f ih =>
    intro f₂ l h₁ h₂
    cases l with
    | nil => cases f₂ <;> rfl
    | cons c rest =>
      cases f₂ with
      | zero => simp at h₂
      | succ g =>
        have hr : rest.length ≤ f := by simpa using h₁
        have hg : rest.length ≤ g := by simpa using h₂
        simp only [replaceAllF]
        by_cases hc : pat ≠ [] ∧ pat.isPrefixOf (c :: rest)
        · simp only [if_pos hc]
          have hd : (rest.drop (pat.length - 1)).length ≤ rest.length := by
            simp [List.length_drop]
          rw [ih g _ (le_trans hd hr) (le_trans hd hg)]
        · simp only [if_neg hc]
          rw [ih g rest hr hg]

theorem replaceAll_cons_match (pat repl x : List Char) (h : pat ≠ []) :
    replaceAll pat repl (pat ++ x) = repl ++ replaceAll pat repl x := by
  cases pat with
  | nil => exact absurd rfl h
  | cons a ts =>
    show replaceAllF (a :: ts) repl (((a :: ts) ++ x).length) ((a :: ts) ++ x) = _
    have hlen : ((a :: ts) ++ x).length = (ts ++ x).length + 1 := by simp
    rw [hlen]
    simp only [List.cons_append, replaceAllF]
    rw [if_pos ⟨h, List.isPrefixOf_iff_prefix.mpr (List.prefix_append (a :: ts) x)⟩]
    have hdrop : (ts ++ x).drop ((a :: ts).length - 1) = x := by
      simp
    simp only [List.append_eq]
    rw [hdrop]
    congr 1
    exact replaceAllF_fuel _ _ _ _ _ (by simp) (le_refl _)

theorem length_dropWhile_le (p : Char → Bool) (l : List Char) :
    (l.dropWhile p).length ≤ l.length := by
  induction l with
  | nil => simp [List.dropWhile]
  | cons c rest ih =>
    simp only [List.dropWhile]
    by_cases h : p c
    · simp only [h]
      exact le_trans ih (by simp)
    · simp [h]

theorem stripTagCI_length {t l r : List Char} (h : stripTagCI t l = some r) :
    r.length ≤ l.length := by
  induction t generalizing l with
  | nil =>
    simp only [stripTagCI, Option.some.injEq] at h
    simp [h]
  | cons a ts ih =>
    cases l with
    | nil => simp [stripTagCI] at h
    | cons c cs =>
      simp only [stripTagCI] at h
      by_cases hc : c.toLower = a.toLower
      · rw [if_pos hc] at h
        exact le_trans (ih h) (by simp)
      · rw [if_neg hc] at h
        exact absurd h (by simp)

theorem stripTagCI_append (t z : List Char) : stripTagCI t (t ++ z) = some z := by
  induction t with
  | nil => rfl
  | cons a ts ih => simp [stripTagCI, ih]

theorem scanGt_length {l r : List Char} (h : scanGt l = some r) :
    r.length < l.length := by
  induction l with
  | nil => simp [scanGt] at h
  | cons c cs ih =>
    simp only [scanGt] at h
    by_cases hc : c = '>'
    · rw [if_pos hc] at h
      cases h
      simp
    · rw [if_neg hc] at h
      by_cases hn : isLineTerm c
      · rw [if_pos (by simp [hn])] at h
        exact absurd h (by simp)
      · rw [if_neg (by simp [hn])] at h
        exact Nat.lt_trans (ih h) (by simp)

theorem tagCore_length {tag l r : List Char} (h : tagCore tag l = some r) :
    r.length ≤ l.length :=
  le_trans (stripTagCI_length h) (length_dropWhile_le isSpace l)

theorem matchAfterLt_length {tag l1 r : List Char}
    (h : matchAfterLt tag l1 = some r) : r.length ≤ l1.length := by
  cases l1 with
  | nil => exact tagCore_length h
  | cons c1 l2 =>
    simp only [matchAfterLt] at h
    by_cases hc : c1 = '/'
    · rw [if_pos hc] at h
      cases htc : tagCore tag l2 with
      | some r2 =>
        rw [htc] at h
        cases h
        exact le_trans (tagCore_length htc) (by simp)
      | none =>
        rw [htc] at h
        exact tagCore_length h
    · rw [if_neg hc] at h
      exact tagCore_length h

theorem matchTag_head {tag l r : List Char} (h : matchTag tag l = some r) :
    ∃ l1, l = '<' :: l1 := by
  cases l with
  | nil => simp [matchTag] at h
  | cons c l1 =>
    simp only [matchTag] at h
    by_cases hc : c = '<'
    · exact ⟨l1, by rw [hc]⟩
    · rw [if_neg hc] at h
      exact absurd h (by simp)

theorem matchTag_cons_eq (tag l1 : List Char) :
    matchTag tag ('<' :: l1) =
      match matchAfterLt tag l1 with
      | none => none
      | some r =>
        match scanGt r with
        | some rr => some rr
        | none => some r := by
  simp [matchTag]

theorem matchTag_rest_lt {tag l r : List Char} (h : matchTag tag l = some r) :
    r.length < l.length := by
  obtain ⟨l1, rfl⟩ := matchTag_head h
  rw [matchTag_cons_eq] at h
  cases hma : matchAfterLt tag l1 with
  | none =>
    simp only [hma] at h
    exact absurd h (by simp)
  | some r0 =>
    simp only [hma] at h
    have h0 : r0.length ≤ l1.length := matchAfterLt_length hma
    cases hsg : scanGt r0 with
    | some rr =>
      simp only [hsg, Option.some.injEq] at h
      subst h
      have := scanGt_length hsg
      simp only [List.length_cons]
      omega
    | none =>
      simp only [hsg, Option.some.injEq] at h
      subst h
      simp only [List.length_cons]
      omega

theorem matchTag_none_of_ne {tag : List Char} {c : Char} {l1 : List Char}
    (hc : c ≠ '<') : matchTag tag (c :: l1) = none := by
  simp [matchTag, hc]

theorem escBrackets_no_lt (l : List Char) : '<' ∉ escBrackets l := by
  intro hm
  rw [escBrackets, List.mem_flatMap] at hm
  obtain ⟨c, _, hc⟩ := hm
  by_cases h1 : c = '<'
  · rw [if_pos h1] at hc
    simp at hc
  · rw [if_neg h1] at hc
    by_cases h2 : c = '>'
    · rw [if_pos h2] at hc
      simp at hc
    · rw [if_neg h2] at hc
      simp at hc
      exact h1 hc.symm

theorem escBrackets_cons_lt (m : List Char) :
    escBrackets ('<' :: m) = '&' :: 'l' :: 't' :: ';' :: escBrackets m := by
  simp [escBrackets]

theorem escLoopF_fuel (tag : List Char) :
    ∀ f₁ f₂ l, l.length ≤ f₁ → l.length ≤ f₂ →
      escLoopF tag f₁ l = escLoopF tag f₂ l := by
  intro f₁
  induction f₁ with
  | zero =>
    intro f₂ l h₁ _
    have hl : l = [] := List.length_eq_zero.mp (Nat.le_zero.mp h₁)
    subst hl
    cases f₂ <;> rfl
  | succ f ih =>
    intro f₂ l h₁ h₂
    cases l with
    | nil => cases f₂ <;> rfl
    | cons c rest =>
      cases f₂ with
      | zero => simp at h₂
      | succ g =>
        have hr : rest.length ≤ f := by simpa using h₁
        have hg : rest.length ≤ g := by simpa using h₂
        simp only [escLoopF]
        split
        · rename_i r hmt
          have hlt : r.length < (c :: rest).length := matchTag_rest_lt hmt
          have hrf : r.length ≤ f := by simp only [List.length_cons] at hlt; omega
          have hrg : r.length ≤ g := by simp only [List.length_cons] at hlt; omega
          rw [ih g r hrf hrg]
        · rw [ih g rest hr hg]

theorem escLoopF_prefix (tag : List Char) :
    ∀ f l t, '&' ∉ t → t <+: escLoopF tag f l → t <+: l := by
  intro f
  induction f with
  | zero => intro l t _ h; exact h
  | succ f ih =>
    intro l t hamp h
    cases l with
    | nil =>
      have : t = [] := List.prefix_nil.mp (by simpa [escLoopF] using h)
      simp [this]
    | cons c rest =>
      cases hmt : matchTag tag (c :: rest) with
      | some r =>
        simp only [escLoopF, hmt] at h
        cases t with
        | nil => exact List.nil_prefix
        | cons th tt =>
          exfalso
          obtain ⟨l1, hl⟩ := matchTag_head hmt
          have hc : c = '<' := (List.cons_eq_cons.mp hl).1
          have hk : ∃ k, (c :: rest).length - r.length = k + 1 := by
            have := matchTag_rest_lt hmt
            exact ⟨(c :: rest).length - r.length - 1, by omega⟩
          obtain ⟨k, hkk⟩ := hk
          rw [hkk, hc, List.take_succ_cons, escBrackets_cons_lt] at h
          have : th = '&' := (List.cons_prefix_cons.mp h).1
          exact hamp (this ▸ List.mem_cons_self th tt)
      | none =>
        simp only [escLoopF, hmt] at h
        cases t with
        | nil => exact List.nil_prefix
        | cons th tt =>
          obtain ⟨hth, htt⟩ := List.cons_prefix_cons.mp h
          have htt2 : tt <+: rest :=
            ih rest tt (fun hm => hamp (List.mem_cons_of_mem _ hm)) htt
          exact List.cons_prefix_cons.mpr ⟨hth, htt2⟩

theorem infix_append_cases {p a b : List Char} (h : p <:+: a ++ b) :
    p <:+: b ∨ ∃ s, s <:+ a ∧ s ≠ [] ∧ p <+: s ++ b := by
  induction a with
  | nil => left; simpa using h
  | cons x a2 ih =>
    rw [List.cons_append] at h
    rcases List.infix_cons_iff.mp h with hp | hi
    · right
      exact ⟨x :: a2, List.suffix_refl _, by simp, by simpa using hp⟩
    · rcases ih hi with hb | ⟨s, hs, hne, hp⟩
      · left; exact hb
      · right
        exact ⟨s, hs.trans (List.suffix_cons x a2), hne, hp⟩

theorem matchTag_closing (a : Char) (ts : List Char) (ha : isSpace a = false)
    (z : List Char) :
    matchTag (a :: ts) ('<' :: '/' :: ((a :: ts) ++ '>' :: z)) = some z := by
  have hcore : tagCore (a :: ts) ((a :: ts) ++ '>' :: z) = some ('>' :: z) := by
    unfold tagCore
    rw [List.cons_append, List.dropWhile_cons]
    simp only [ha, Bool.false_eq_true, if_false]
    simpa using stripTagCI_append (a :: ts) ('>' :: z)
  have hafter :
      matchAfterLt (a :: ts) ('/' :: ((a :: ts) ++ '>' :: z)) = some ('>' :: z) := by
    simp only [List.cons_append] at hcore
    simp [matchAfterLt, hcore]
  rw [matchTag_cons_eq, hafter]
  simp [scanGt]

theorem escLoopF_no_pattern (tag t : List Char) (hamp : '&' ∉ t)
    (hm : ∀ z, (matchTag tag ('<' :: (t ++ z))).isSome = true) :
    ∀ f l, l.length ≤ f → ¬ (('<' :: t) <:+: escLoopF tag f l) := by
  intro f
  induction f with
  | zero =>
    intro l hl hinf
    have : l = [] := List.length_eq_zero.mp (Nat.le_zero.mp hl)
    subst this
    simp only [escLoopF] at hinf
    exact absurd (List.infix_nil.mp hinf) (by simp)
  | succ f ih =>
    intro l hl hinf
    cases l with
    | nil =>
      simp only [escLoopF] at hinf
      exact absurd (List.infix_nil.mp hinf) (by simp)
    | cons c rest =>
      have hr : rest.length ≤ f := by simpa using hl
      cases hmt : matchTag tag (c :: rest) with
      | some r =>
        simp only [escLoopF, hmt] at hinf
        rcases infix_append_cases hinf with h1 | ⟨s, hs, hne, hp⟩
        · have hrlen : r.length ≤ f := by
            have := matchTag_rest_lt hmt
            simp only [List.length_cons] at this
            omega
          exact ih r hrlen h1
        · cases s with
          | nil => exact hne rfl
          | cons sh st =>
            have hsh : '<' = sh := (List.cons_prefix_cons.mp (by simpa using hp)).1
            have hmem : sh ∈ escBrackets _ := hs.subset (List.mem_cons_self sh st)
            exact escBrackets_no_lt _ (hsh ▸ hmem)
      | none =>
        simp only [escLoopF, hmt] at hinf
        rcases List.infix_cons_iff.mp hinf with hp | hi
        · obtain ⟨hc, ht⟩ := List.cons_prefix_cons.mp hp
          have htr : t <+: rest := escLoopF_prefix tag f rest t hamp ht
          obtain ⟨z, hz⟩ := htr
          have hsome := hm z
          rw [hz] at hsome
          rw [← hc] at hmt
          rw [hmt] at hsome
          simp at hsome
        · exact ih rest hr hi

theorem escLoopF_id (tag : List Char) :
    ∀ f l, (∀ c ∈ l, c ≠ '<') → escLoopF tag f l = l := by
  intro f
  induction f with
  | zero => intro l _; rfl
  | succ f ih =>
    intro l hl
    cases l with
    | nil => rfl
    | cons c rest =>
      have hc : c ≠ '<' := hl c (by simp)
      simp only [escLoopF, matchTag_none_of_ne hc]
      rw [ih rest (fun d hd => hl d (by simp [hd]))]

/-- Claim C1, counterexample.  The claim asserts that a request whose code
fails with a missing-dependency diagnostic for an installable dependency
is re-run after installing it and terminates in `Succeeded` with the name
once in `resolvedDependencies`.  For the Node-variant `runPythonCode`
(src/main.ts v0.0.1 section) and the concrete code unit `cNumpy` — which
imports `numpy`, declares no PEP 723 block, would fail in an empty
environment and would succeed once `numpy` is installed — the request
instead terminates with status `error` and an empty `dependencies` list,
after exactly one run and no install: run-time missing-dependency
diagnostics are never classified and nothing is ever re-run. -/
theorem claimC1_counterexample :
    nodeRunPythonCode cNumpy [] (fun _ => true) =
      { status := .error, dependencies := [], runs := 1 } ∧
    cNumpy.runsOk [] = false ∧ cNumpy.runsOk ["numpy".data] = true := by
  decide

/-- Claim C1, amended.  In the part_005 `runLocalPython` bootstrap, the
missing dependency is found by the static import scan before any
execution, installed then, and the code is executed exactly once (never
re-run after a failure): when the scan finds exactly the one missing name
`m`, the install succeeds and the code runs successfully with `m`
installed, the request ends with status `success`, with `m` exactly once
in `dependencies`, and with exactly one run. -/
theorem claimC1 (c : PyCode) (installed : List (List Char))
    (pipOk : List Char → Bool) (m : List Char)
    (hp : c.pep723 = none)
    (hmiss : c.imports.eraseDups.filter (fun d => !installed.contains d) = [m])
    (hpip : pipOk m = true)
    (hrun : c.runsOk (installed ++ [m]) = true) :
    runLocalPython c installed pipOk =
      { status := .success, dependencies := [m], runs := 1 } := by
  unfold runLocalPython find_deps
  rw [hp, hmiss]
  simp [List.filter, hpip, hrun]

theorem claimC1_witness :
    runLocalPython cNumpy [] (fun _ => true) =
      { status := .success, dependencies := ["numpy".data], runs := 1 } :=
  claimC1 cNumpy [] (fun _ => true) "numpy".data rfl (by decide) rfl (by decide)

/-- Claim C2, counterexample.  The claim asserts that the virtual-to-host
substitution rewrites an occurrence of the bound virtual prefix only when
followed by a separator or end-of-string, and in particular that
`/working2` is never rewritten when the bound prefix is `/working`.  The
source builds `new RegExp(mountPoint, 'g')` with no boundary assertion, so
with mount `/working` bound to `/h` the input `/working2` is rewritten to
`/h2`. -/
theorem claimC2_counterexample :
    replaceVirtualPaths cfgW "/working2".data = "/h2".data ∧
    replaceVirtualPaths cfgW "/working2".data ≠ "/working2".data := by
  decide

/-- Claim C2, amended.  The substitution enforces no boundary: an
occurrence of the mount point is rewritten even when immediately followed
by a non-separator character such as `'2'`. -/
theorem claimC2 (cfg : FileSystemConfig) (s : List Char)
    (h : cfg.mountPoint ≠ []) :
    replaceVirtualPaths cfg (cfg.mountPoint ++ '2' :: s) =
      cfg.localPath ++ replaceAll cfg.mountPoint cfg.localPath ('2' :: s) := by
  unfold replaceVirtualPaths
  exact replaceAll_cons_match _ _ _ h

theorem claimC2_witness :
    replaceVirtualPaths cfgW (cfgW.mountPoint ++ '2' :: "/f".data) =
      cfgW.localPath ++ replaceAll cfgW.mountPoint cfgW.localPath ('2' :: "/f".data) :=
  claimC2 cfgW "/f".data (by decide)

/-- Claim C3, counterexample.  The claim asserts the staged temp file is
removed before the request returns on every exit path, including an
exception raised while running.  When spawning the interpreter raises
(e.g. the binary is missing) — which happens after the temp file was
written — the outer catch returns the error result directly and the temp
file is still present. -/
theorem claimC3_counterexample :
    (runPythonCode cfgW "print(1)".data
        (.raised "NotFound: python".data) true).tempFileRemains = true ∧
    (runPythonCode cfgW "print(1)".data
        (.raised "NotFound: python".data) true).result =
      { status := .error, output := [], error := some "NotFound: python".data } := by
  decide

/-- Claim C3, amended.  The temp file is removed exactly on the exit paths
where the subprocess completes (with any exit code) and the removal call
itself succeeds; when removal fails, or when an exception is raised during
spawning/running, the request still returns its result but the temp file
remains on disk. -/
theorem claimC3 (cfg : FileSystemConfig) (pc : List Char) (code : Int)
    (out err msg : List Char) (cl : Bool) :
    (runPythonCode cfg pc (.completed code out err) true).tempFileRemains = false ∧
    (runPythonCode cfg pc (.completed code out err) false).tempFileRemains = true ∧
    (runPythonCode cfg pc (.raised msg) cl).tempFileRemains = true :=
  ⟨rfl, rfl, rfl⟩

/-- Claim C4, counterexample.  The claim asserts the inverse substitution
(host path back to virtual path) is applied to captured output, so a host
path introduced by the forward substitution never appears in the returned
output.  With mount `/working` bound to `/h`, the code
`print('/working/f')` is staged as `print('/h/f')` (forward substitution
applied), the subprocess prints the host path `/h/f`, and the returned
output contains that host path verbatim — no inverse substitution exists
in the source. -/
theorem claimC4_counterexample :
    (runPythonCode cfgW "print('/working/f')".data
        (.completed 0 "/h/f\n".data []) true).stagedSource =
      "print('/h/f')".data ∧
    (runPythonCode cfgW "print('/working/f')".data
        (.completed 0 "/h/f\n".data []) true).result.output =
      ["/h/f".data, []] ∧
    "/h".data <:+: "/h/f".data := by
  decide

/-- Claim C4, amended.  The forward substitution is applied to the source
text before staging, but the captured stdout is split into lines and
returned verbatim: no inverse substitution is applied to the output, so
host paths may appear in the result. -/
theorem claimC4 (cfg : FileSystemConfig) (pc : List Char) (code : Int)
    (out err : List Char) (cl : Bool) :
    (runPythonCode cfg pc (.completed code out err) cl).stagedSource =
      replaceVirtualPaths cfg pc ∧
    (runPythonCode cfg pc (.completed code out err) cl).result.output =
      splitLines out := by
  refine ⟨rfl, ?_⟩
  by_cases h : code = 0 <;> simp [runPythonCode, h]

/-- Claim C5, counterexample.  The claim asserts virtual-to-host
resolution fails exactly when no covering mount entry exists and in
particular never succeeds on `/working2/x` when the bound prefix is
`/working`.  `virtualToLocalPath` only checks `startsWith(mountPoint)`
with no boundary, so `/working2/x` resolves successfully (to `/h2/x`). -/
theorem claimC5_counterexample :
    virtualToLocalPath cfgW "/working2/x".data = Except.ok "/h2/x".data := by
  rfl

/-- Claim C5, amended.  `virtualToLocalPath` fails exactly when the mount
point is not a plain string prefix of the input (so `/working2/x` is
accepted), while `virtToHost` fails exactly when `vroot ++ "/"` is not a
plain string prefix (so it also rejects the exact mount path). -/
theorem claimC5 (cfg : FileSystemConfig) (hostDir vroot p : List Char) :
    ((virtualToLocalPath cfg p).isOk = cfg.mountPoint.isPrefixOf p) ∧
    ((virtToHost hostDir vroot p).isOk = (vroot ++ ['/']).isPrefixOf p) := by
  constructor
  · unfold virtualToLocalPath
    cases hb : cfg.mountPoint.isPrefixOf p <;>
      simp [hb, Except.isOk, Except.toBool]
  · unfold virtToHost
    cases hb : (vroot ++ ['/']).isPrefixOf p <;>
      simp [hb, Except.isOk, Except.toBool]

/-- Claim C6, counterexample.  The claim asserts that an exit code 0 gives
status `success` and a null `error` field regardless of what was written
to stderr.  The source returns `error: error ? error : null`, so on exit 0
with nonempty stderr the `error` field is the stderr text, not null. -/
theorem claimC6_counterexample :
    (runPythonCode cfgW "x".data
        (.completed 0 "ok\n".data "Warning: low disk".data) true).result.status =
      .success ∧
    (runPythonCode cfgW "x".data
        (.completed 0 "ok\n".data "Warning: low disk".data) true).result.error =
      some "Warning: low disk".data := by
  decide

/-- Claim C6, amended.  On exit code 0 the status is `success` and the
output is the accumulated stdout lines, but the `error` field is the
captured stderr text whenever stderr is nonempty, and null only when
stderr is empty. -/
theorem claimC6 (cfg : FileSystemConfig) (pc out err : List Char) (cl : Bool) :
    (runPythonCode cfg pc (.completed 0 out err) cl).result.status = .success ∧
    (runPythonCode cfg pc (.completed 0 out err) cl).result.output =
      splitLines out ∧
    (runPythonCode cfg pc (.completed 0 out err) cl).result.error =
      (if err = [] then none else some err) := by
  refine ⟨?_, ?_, ?_⟩ <;> simp [runPythonCode]

/-- Claim C7, counterexample.  The claim asserts that resolving an input
exactly equal to a mount's virtual prefix always succeeds and returns the
host root.  `virtToHost` (part_005) requires the input to start with
`vroot ++ "/"`, so the exact mount path `/working` is rejected with an
error. -/
theorem claimC7_counterexample :
    virtToHost "/tmp/x".data "/working".data "/working".data =
      Except.error ("path must start with the virtual root".data) := by
  rfl

/-- Claim C7, amended.  `virtualToLocalPath` on the exact mount point
succeeds and returns exactly the host root with nothing appended, but
`virtToHost` rejects the exact mount path for every binding, accepting
only inputs strictly under `vroot ++ "/"`. -/
theorem claimC7 (cfg : FileSystemConfig) (hostDir vroot : List Char) :
    virtualToLocalPath cfg cfg.mountPoint = .ok cfg.localPath ∧
    (virtToHost hostDir vroot vroot).isOk = false := by
  constructor
  · unfold virtualToLocalPath
    rw [if_pos ( List.isPrefixOf_iff_prefix.mpr (List.prefix_refl _))]
    simp
  · unfold virtToHost
    have hnp : ¬ (vroot ++ ['/']) <+: vroot := by
      intro hp
      have := hp.length_le
      simp at this
    rw [if_neg (fun hb => hnp ( List.isPrefixOf_iff_prefix.mp hb))]
    simp [Except.isOk, Except.toBool]

/-- Claim C8, confirmed.  When removal of the staged temp file fails, the
returned result is identical to the one returned when removal succeeds
(in particular the `error` field is untouched), and the failure is logged
as a warning: cleanup failures are logged, never surfaced, and never block
returning the already-computed result. -/
theorem claimC8 (cfg : FileSystemConfig) (pc : List Char) (code : Int)
    (out err : List Char) :
    (runPythonCode cfg pc (.completed code out err) false).result =
      (runPythonCode cfg pc (.completed code out err) true).result ∧
    (LogLevel.warning, cleanupFailMsg) ∈
      (runPythonCode cfg pc (.completed code out err) false).logs :=
  ⟨rfl, by simp [runPythonCode]⟩

/-- Claim C9, confirmed.  After the polyfill, every read of `process.env`
returns the empty object: reads are independent of the underlying host
environment (two processes with different host environments observe the
same value), and that value is empty. -/
theorem claimC9 :
    (∀ p q : NodeProcess, processEnv p = processEnv q) ∧
    ∀ p : NodeProcess, processEnv p = [] :=
  ⟨fun _ _ => rfl, fun _ => rfl⟩

/-- Claim C10, confirmed.  For every input string, the escaped text
contains no literal closing tag of the enclosing element (`</output>`
resp. `</error>`); text containing no `'<'` (hence no tag occurrence at
all) passes through unchanged; and a tag occurrence is escaped by
replacing its angle brackets with `&lt;`/`&gt;`, as on the concrete line
`a</output>b`. -/
theorem claimC10 :
    (∀ s : List Char, ¬ ("</output>".data <:+: escapeClosing "output".data s)) ∧
    (∀ s : List Char, ¬ ("</error>".data <:+: escapeClosing "error".data s)) ∧
    (∀ s : List Char, (∀ c ∈ s, c ≠ '<') →
      escapeClosing "output".data s = s ∧ escapeClosing "error".data s = s) ∧
    escapeClosing "output".data "a</output>b".data = "a&lt;/output&gt;b".data := by
  refine ⟨?_, ?_, ?_, ?_⟩
  · intro s
    have hm : ∀ z,
        (matchTag "output".data ('<' :: ("/output>".data ++ z))).isSome = true := by
      intro z
      have hmc := matchTag_closing 'o' "utput".data (by decide) z
      have harg : '<' :: ("/output>".data ++ z) =
          '<' :: '/' :: (('o' :: "utput".data) ++ '>' :: z) := by simp
      rw [harg]
      rw [show ('o' :: "utput".data : List Char) = "output".data from rfl] at hmc ⊢
      rw [hmc]
      rfl
    exact escLoopF_no_pattern "output".data "/output>".data (by decide) hm
      s.length s (le_refl _)
  · intro s
    have hm : ∀ z,
        (matchTag "error".data ('<' :: ("/error>".data ++ z))).isSome = true := by
      intro z
      have hmc := matchTag_closing 'e' "rror".data (by decide) z
      have harg : '<' :: ("/error>".data ++ z) =
          '<' :: '/' :: (('e' :: "rror".data) ++ '>' :: z) := by simp
      rw [harg]
      rw [show ('e' :: "rror".data : List Char) = "error".data from rfl] at hmc ⊢
      rw [hmc]
      rfl
    exact escLoopF_no_pattern "error".data "/error>".data (by decide) hm
      s.length s (le_refl _)
  · intro s hs
    exact ⟨escLoopF_id _ _ _ hs, escLoopF_id _ _ _ hs⟩
  · decide

theorem claimC10_witness :
    escapeClosing "output".data "abc".data = "abc".data :=
  (claimC10.2.2.1 "abc".data (by decide)).1

end RunPythonLocal
